import Mathlib

/-!
Verification of the unbounded async channel library.

The development embeds the two source components:

* `LLQueue` — the singly linked FIFO queue of `linked-list-queue.ts`,
  modelled with an explicit node heap (`nodes : List (value × next)`),
  `front`/`rear` pointers and a stored `size` counter, so that the lazy,
  pointer-chasing iterator can be modelled faithfully.

* `Channel` — the channel of `index.ts`.  A JS promise together with its
  resolver is modelled as a numeric slot id: `promises` and `resolvers`
  are the FIFO queues of slot ids, and `settled` is the (first-write-wins)
  map from slot id to the result its promise has been resolved with.
  The channel's queues are represented by their element sequences; the
  `LLQueue` refinement theorems below show the linked-list queue's
  enqueue/dequeue/size behave exactly as list append/head/length.
-/

/-- Node heap cell of the linked-list queue: the stored value and the
index of the next node (`null` as `none`).  New nodes are appended to the
heap, so a node's index is the heap length at its creation. -/
structure LLQueue (α : Type) where
  nodes : List (α × Option Nat)
  front : Option Nat
  rear : Option Nat
  size : Nat
  deriving DecidableEq, Repr

/-- Fresh empty queue (`createLinkedListQueue`). -/
def createLinkedListQueue : LLQueue α :=
  { nodes := [], front := none, rear := none, size := 0 }

/-- Overwrite the `next` pointer of node `i` (`rear.next = node`). -/
def LLQueue.setNext (nodes : List (α × Option Nat)) (i : Nat) (j : Option Nat) :
    List (α × Option Nat) :=
  match nodes[i]? with
  | none => nodes
  | some (v, _) => nodes.set i (v, j)

/-- The source's `enqueue(value)`: allocate a node; if the queue is empty it
becomes both front and rear, otherwise it is linked after the old rear. -/
def LLQueue.enqueue (q : LLQueue α) (value : α) : LLQueue α :=
  let id := q.nodes.length
  let nodes1 := q.nodes ++ [(value, none)]
  match q.rear with
  | none =>
    { nodes := nodes1, front := some id, rear := some id, size := q.size + 1 }
  | some r =>
    { nodes := LLQueue.setNext nodes1 r (some id), front := q.front,
      rear := some id, size := q.size + 1 }

/-- The source's `dequeue()`: `null` on an empty queue, otherwise remove and
return the front value, clearing `rear` when the queue empties. -/
def LLQueue.dequeue (q : LLQueue α) : Option α × LLQueue α :=
  match q.front with
  | none => (none, q)
  | some f =>
    match q.nodes[f]? with
    | none => (none, q)
    | some (v, nxt) =>
      (some v,
        { q with front := nxt, rear := if nxt = none then none else q.rear,
                 size := q.size - 1 })

/-- Walk the live node chain from pointer `p`, collecting values; `fuel`
bounds the walk (next pointers strictly increase, so heap length suffices). -/
def LLQueue.chainList (nodes : List (α × Option Nat)) : Option Nat → Nat → List α
  | none, _ => []
  | some _, 0 => []
  | some i, fuel + 1 =>
    match nodes[i]? with
    | none => []
    | some (v, nxt) => v :: LLQueue.chainList nodes nxt fuel

/-- The source's `[Symbol.iterator]` generator, consumed to the end against
the queue's current heap: it starts at `front` and follows the live `next`
pointers, never mutating the queue. -/
def LLQueue.toList (q : LLQueue α) : List α :=
  LLQueue.chainList q.nodes q.front q.nodes.length

/-- Result of a read or write: `{closed:false, value}` or `{closed:true, error?}`. -/
inductive MaybeClosedResult (α ε : Type) where
  | value (v : α)
  | closedRes (error : Option ε)
  deriving DecidableEq, Repr

/-- Outcome of a `read()` call: an immediately resolved result, or a
pending promise identified by its slot id, to be awaited. -/
inductive ReadOutcome (α ε : Type) where
  | done (r : MaybeClosedResult α ε)
  | wait (id : Nat)
  deriving DecidableEq, Repr

/-- State of an unbounded async channel (`createUnboundedAsyncChannel`'s
closure variables): the two slot-id queues, the resolution map for the
promises created so far, and the closed/error flags. -/
structure Channel (α ε : Type) where
  nextId : Nat
  promises : List Nat
  resolvers : List Nat
  settled : List (Nat × MaybeClosedResult α ε)
  closed : Bool
  error : Option ε
  deriving DecidableEq, Repr

namespace Channel

/-- Fresh open channel with empty queues (`createUnboundedAsyncChannel`). -/
def createUnboundedAsyncChannel : Channel α ε :=
  { nextId := 0, promises := [], resolvers := [], settled := [],
    closed := false, error := none }

/-- Resolve slot `id` with result `r`.  A JS promise settles at most once,
so a second resolution of the same slot is a no-op. -/
def settle (c : Channel α ε) (id : Nat) (r : MaybeClosedResult α ε) : Channel α ε :=
  match c.settled.lookup id with
  | some _ => c
  | none => { c with settled := (id, r) :: c.settled }

/-- Create a fresh unsettled slot and append it to both queues
(the source's `addPromise`: the promise executor runs synchronously,
enqueuing the resolver in the same instant as the promise). -/
def addPromise (c : Channel α ε) : Channel α ε :=
  { c with
    nextId := c.nextId + 1,
    promises := c.promises ++ [c.nextId],
    resolvers := c.resolvers ++ [c.nextId] }

/-- Guard in `write`: `if (resolvers.size === 0) addPromise();`. -/
def ensureResolver (c : Channel α ε) : Channel α ε :=
  if c.resolvers.length = 0 then addPromise c else c

/-- Guard in `read`: `if (promises.size === 0) addPromise();`. -/
def ensurePromise (c : Channel α ε) : Channel α ε :=
  if c.promises.length = 0 then addPromise c else c

/-- The source's `write(value)`: returns the `MaybeClosedResult`
acknowledgment and the updated channel state. -/
def write (c : Channel α ε) (v : α) : MaybeClosedResult α ε × Channel α ε :=
  if c.closed then
    match c.error with
    | some e => (.closedRes (some e), c)
    | none => (.closedRes none, c)
  else
    let c1 := ensureResolver c
    match c1.resolvers with
    | [] =>
      -- dead branch: models the source's non-null assertion `resolvers.dequeue()!`;
      -- `ensureResolver_resolvers_ne_nil` below proves it is unreachable
      (.value v, c1)
    | r :: rest =>
      (.value v, settle { c1 with resolvers := rest } r (.value v))

/-- The source's `read()`: either resolves immediately (closed and
drained) or claims the front promise, whose settlement is the read's
eventual result. -/
def read (c : Channel α ε) : ReadOutcome α ε × Channel α ε :=
  if c.closed ∧ c.promises.length = 0 then
    match c.error with
    | some e => (.done (.closedRes (some e)), c)
    | none => (.done (.closedRes none), c)
  else
    let c1 := ensurePromise c
    match c1.promises with
    | [] =>
      -- dead branch: models the source's non-null assertion `promises.dequeue()!`;
      -- `ensurePromise_promises_ne_nil` below proves it is unreachable
      (.done (.closedRes none), c1)
    | p :: rest =>
      (.wait p, { c1 with promises := rest })

/-- The source's `close(err)`: no-op when already closed, otherwise set the
flags and resolve every pending resolver, in FIFO order, with the closure
notice.  The traversal is the queue's non-destructive iteration: the
resolver queue is not emptied. -/
def close (c : Channel α ε) (err : Option ε) : Channel α ε :=
  if c.closed then c
  else
    let c1 := { c with closed := true, error := err }
    -- the source resolves each pending resolver with `{error: err, closed: true}`
    -- when `err` is present and with `{closed: true}` otherwise; both objects
    -- are `closedRes err` in this embedding
    c1.resolvers.foldl (fun acc r => settle acc r (.closedRes err)) c1

/-- The source's `state` getter: the current closed/error fields. -/
def state (c : Channel α ε) : Bool × Option ε :=
  (c.closed, c.error)

/-- Eventual value of a read outcome in channel state `c`: an immediate
result, or the settlement (if any) of the awaited slot. -/
def readResult (c : Channel α ε) (o : ReadOutcome α ε) : Option (MaybeClosedResult α ε) :=
  match o with
  | .done r => some r
  | .wait id => c.settled.lookup id

/-- Perform `n` sequential reads, collecting each read's eventual result. -/
def readN (c : Channel α ε) : Nat → List (Option (MaybeClosedResult α ε)) × Channel α ε
  | 0 => ([], c)
  | n + 1 =>
    let r := read c
    let rest := readN r.2 n
    (readResult r.2 r.1 :: rest.1, rest.2)

/-- Perform a sequence of writes. -/
def writeAll (c : Channel α ε) (vs : List α) : Channel α ε :=
  vs.foldl (fun acc v => (write acc v).2) c

/-- Outcome of driving the channel's async iterator: the values yielded,
and whether the loop ended cleanly (`break`), threw the stored error, or
got stuck awaiting an unsettled slot (or ran out of fuel). -/
inductive IterOutcome (α ε : Type) where
  | ended (ys : List α)
  | threw (ys : List α) (e : ε)
  | stuck (ys : List α)
  deriving DecidableEq, Repr

/-- Prepend a yielded value to an iteration outcome. -/
def IterOutcome.consY (v : α) : IterOutcome α ε → IterOutcome α ε
  | .ended ys => .ended (v :: ys)
  | .threw ys e => .threw (v :: ys) e
  | .stuck ys => .stuck (v :: ys)

/-- The source's `[Symbol.asyncIterator]` generator, driven for at most
`fuel` reads: loop on `read()`; on a closed result throw the error if
present, otherwise break; otherwise yield the value and continue. -/
def iterate (c : Channel α ε) : Nat → IterOutcome α ε
  | 0 => .stuck []
  | fuel + 1 =>
    match readResult (read c).2 (read c).1 with
    | none => .stuck []
    | some (.value v) => (iterate (read c).2 fuel).consY v
    | some (.closedRes none) => .ended []
    | some (.closedRes (some e)) => .threw [] e

/-- External operations on a channel (read's mutation step included). -/
inductive ChanOp (α ε : Type) where
  | write (v : α)
  | read
  | close (e : Option ε)

/-- State transition of a single operation (outputs discarded). -/
def step (c : Channel α ε) : ChanOp α ε → Channel α ε
  | .write v => (write c v).2
  | .read => (read c).2
  | .close e => close c e

/-- Channel state reached by running a sequence of operations on a fresh
channel. -/
def runOps (ops : List (ChanOp α ε)) : Channel α ε :=
  ops.foldl step createUnboundedAsyncChannel

/-- Quiescent channel description: `cl`/`e` are the closed/error fields,
`vs` is the full sequence of values ever written, of which the first `k`
have already been read.  The channel has no pending readers
(`resolvers = []`), its promise queue holds the slot ids of the unread
values `vs[k..]`, and every slot `i < vs.length` is settled with `vs[i]`. -/
abbrev ChanInv (c : Channel α ε) (cl : Bool) (e : Option ε) (k : Nat) (vs : List α) : Prop :=
  c.closed = cl ∧ c.error = e ∧ c.nextId = vs.length ∧ k ≤ vs.length ∧
  c.resolvers = [] ∧ c.promises = List.range' k (vs.length - k) ∧
  (∀ i, i < vs.length → c.settled.lookup i = vs[i]?.map MaybeClosedResult.value) ∧
  (∀ p ∈ c.settled, p.1 < vs.length)

theorem chanInv_init : ChanInv (createUnboundedAsyncChannel (α := α) (ε := ε)) false none 0 [] := by
  refine ⟨rfl, rfl, rfl, Nat.le_refl 0, rfl, rfl, ?_, ?_⟩ <;> simp [createUnboundedAsyncChannel]

theorem lookup_none_of_keys_lt {s : List (Nat × MaybeClosedResult α ε)} {n m : Nat}
    (h : ∀ p ∈ s, p.1 < n) (hm : n ≤ m) : s.lookup m = none := by
  induction s with
  | nil => rfl
  | cons p t ih =>
    rw [List.lookup_cons]
    have hp := h p (List.mem_cons_self p t)
    have : (m == p.1) = false := by
      simp only [beq_eq_false_iff_ne, ne_eq]
      omega
    rw [this]
    exact ih fun q hq => h q (List.mem_cons_of_mem p hq)

theorem write_buffering {c : Channel α ε} (hcl : c.closed = false) (hres : c.resolvers = [])
    (hfresh : c.settled.lookup c.nextId = none) (v : α) :
    write c v = (.value v,
      { c with nextId := c.nextId + 1, promises := c.promises ++ [c.nextId],
               resolvers := [], settled := (c.nextId, .value v) :: c.settled }) := by
  simp [write, ensureResolver, addPromise, settle, hcl, hres, hfresh]

theorem read_claiming {c : Channel α ε} {p : Nat} {rest : List Nat}
    (hprom : c.promises = p :: rest) :
    read c = (.wait p, { c with promises := rest }) := by
  simp [read, ensurePromise, hprom]

theorem read_drained {c : Channel α ε} (hcl : c.closed = true) (hprom : c.promises = []) :
    read c = (.done (.closedRes c.error), c) := by
  cases herr : c.error <;> simp [read, hcl, hprom, herr]

theorem close_quiescent {c : Channel α ε} (hcl : c.closed = false) (hres : c.resolvers = [])
    (err : Option ε) :
    close c err = { c with closed := true, error := err } := by
  cases err <;> simp [close, hcl, hres]

theorem chanInv_write {c : Channel α ε} {e : Option ε} {k : Nat} {vs : List α}
    (h : ChanInv c false e k vs) (v : α) :
    write c v = (.value v, (write c v).2) ∧ ChanInv (write c v).2 false e k (vs ++ [v]) := by
  obtain ⟨hcl, herr, hnext, hk, hres, hprom, hset, hkeys⟩ := h
  have hfresh : c.settled.lookup c.nextId = none :=
    lookup_none_of_keys_lt hkeys (Nat.le_of_eq hnext.symm)
  rw [write_buffering hcl hres hfresh v]
  refine ⟨rfl, hcl, herr, by simp [hnext], by simp; omega, rfl, ?_, ?_, ?_⟩
  · simp only [hprom, hnext, List.length_append, List.length_singleton]
    rw [show vs.length + 1 - k = (vs.length - k) + 1 by omega, List.range'_1_concat]
    congr 2
    omega
  · intro i hi
    simp only [List.length_append, List.length_singleton] at hi
    rw [List.lookup_cons]
    rcases Nat.lt_or_ge i vs.length with hlt | hge
    · have hib : (i == c.nextId) = false := by
        simp only [beq_eq_false_iff_ne, ne_eq, hnext]
        omega
      rw [hib, hset i hlt, List.getElem?_append_left hlt]
    · have hieq : i = vs.length := by omega
      have hib : (i == c.nextId) = true := by simp [hnext, hieq]
      rw [hib]
      subst hieq
      simp
  · intro q hq
    simp only [List.mem_cons] at hq
    simp only [List.length_append, List.length_singleton]
    rcases hq with hq | hq
    · subst hq
      simp [hnext]
    · have := hkeys q hq
      omega

theorem chanInv_read {c : Channel α ε} {cl : Bool} {e : Option ε} {k : Nat} {vs : List α}
    (h : ChanInv c cl e k vs) (hk : k < vs.length) :
    read c = (.wait k, (read c).2) ∧ ChanInv (read c).2 cl e (k + 1) vs ∧
      readResult (read c).2 (.wait k) = vs[k]?.map MaybeClosedResult.value := by
  obtain ⟨hcl, herr, hnext, _, hres, hprom, hset, hkeys⟩ := h
  have hcons : c.promises = k :: List.range' (k + 1) (vs.length - (k + 1)) := by
    rw [hprom, show vs.length - k = (vs.length - (k + 1)) + 1 by omega, List.range'_succ]
  rw [read_claiming hcons]
  exact ⟨rfl, ⟨hcl, herr, hnext, by omega, hres, rfl, hset, hkeys⟩, hset k hk⟩

theorem chanInv_read_drained {c : Channel α ε} {e : Option ε} {vs : List α}
    (h : ChanInv c true e vs.length vs) :
    read c = (.done (.closedRes e), c) := by
  obtain ⟨hcl, herr, _, _, _, hprom, _, _⟩ := h
  have hz : c.promises = [] := by
    rw [hprom]
    simp
  rw [read_drained hcl hz, herr]

theorem chanInv_close {c : Channel α ε} {e0 : Option ε} {k : Nat} {vs : List α}
    (h : ChanInv c false e0 k vs) (err : Option ε) :
    ChanInv (close c err) true err k vs := by
  obtain ⟨hcl, herr, hnext, hk, hres, hprom, hset, hkeys⟩ := h
  rw [close_quiescent hcl hres err]
  exact ⟨rfl, rfl, hnext, hk, hres, hprom, hset, hkeys⟩

theorem chanInv_writeAll {c : Channel α ε} {e : Option ε} {k : Nat} {vs : List α}
    (h : ChanInv c false e k vs) (ws : List α) :
    ChanInv (writeAll c ws) false e k (vs ++ ws) := by
  induction ws generalizing c vs with
  | nil => simpa using h
  | cons w ws ih =>
    have hw := (chanInv_write h w).2
    have := ih hw
    simpa [writeAll, List.append_assoc] using this

theorem readN_drain_values (cl : Bool) {e : Option ε} (n : Nat) :
    ∀ (c : Channel α ε) (k : Nat) (vs : List α), ChanInv c cl e k vs → n = vs.length - k →
    (readN c n).1 = (vs.drop k).map (fun v => some (MaybeClosedResult.value v)) ∧
      ChanInv (readN c n).2 cl e vs.length vs := by
  induction n with
  | zero =>
    intro c k vs h hn
    have hk : k = vs.length := by
      obtain ⟨_, _, _, hk, _⟩ := h
      omega
    subst hk
    exact ⟨by simp [readN], h⟩
  | succ n ih =>
    intro c k vs h hn
    have hk : k < vs.length := by omega
    obtain ⟨hread, hinv, hres⟩ := chanInv_read h hk
    have hrec := ih (read c).2 (k + 1) vs hinv (by omega)
    refine ⟨?_, hrec.2⟩
    show (readResult (read c).2 (read c).1 :: (readN (read c).2 n).1) = _
    rw [show (read c).1 = .wait k by rw [hread]]
    rw [hres, hrec.1, List.getElem?_eq_getElem hk, List.drop_eq_getElem_cons hk,
      List.map_cons, Option.map_some']

theorem readN_drain_closed {e : Option ε} {c : Channel α ε} {vs : List α}
    (h : ChanInv c true e vs.length vs) (m : Nat) :
    (readN c m).1 = List.replicate m (some (MaybeClosedResult.closedRes e)) ∧
      (readN c m).2 = c := by
  induction m with
  | zero => exact ⟨rfl, rfl⟩
  | succ m ih =>
    have hread := chanInv_read_drained h
    refine ⟨?_, ?_⟩
    · show (readResult (read c).2 (read c).1 :: (readN (read c).2 m).1) = _
      rw [hread]
      simp only [readResult]
      rw [ih.1]
      rfl
    · show (readN (read c).2 m).2 = c
      rw [hread]
      exact ih.2

theorem readN_append (a : Nat) :
    ∀ (c : Channel α ε) (b : Nat),
      (readN c (a + b)).1 = (readN c a).1 ++ (readN (readN c a).2 b).1 ∧
      (readN c (a + b)).2 = (readN (readN c a).2 b).2 := by
  induction a with
  | zero => intro c b; simp [readN]
  | succ a ih =>
    intro c b
    have h := ih (read c).2 b
    rw [show a + 1 + b = (a + b) + 1 from by omega]
    constructor
    · show (readResult (read c).2 (read c).1 :: (readN (read c).2 (a + b)).1) = _
      rw [h.1]
      rfl
    · show (readN (read c).2 (a + b)).2 = _
      rw [h.2]
      rfl

theorem iterate_drain {e : Option ε} (n : Nat) :
    ∀ (c : Channel α ε) (k : Nat) (vs : List α), ChanInv c true e k vs → n = vs.length - k →
    iterate c (n + 1) =
      match e with
      | none => .ended (vs.drop k)
      | some er => .threw (vs.drop k) er := by
  induction n with
  | zero =>
    intro c k vs h hn
    have hk : k = vs.length := by
      obtain ⟨_, _, _, hk, _⟩ := h
      omega
    subst hk
    have hread := chanInv_read_drained h
    rw [iterate, hread]
    cases e <;> simp [readResult]
  | succ n ih =>
    intro c k vs h hn
    have hk : k < vs.length := by omega
    obtain ⟨hread, hinv, hres⟩ := chanInv_read h hk
    have hrec := ih (read c).2 (k + 1) vs hinv (by omega)
    rw [iterate, show (read c).1 = .wait k by rw [hread], hres,
      List.getElem?_eq_getElem hk, Option.map_some', hrec, List.drop_eq_getElem_cons hk]
    cases e <;> rfl

theorem settle_promises (c : Channel α ε) (id : Nat) (r : MaybeClosedResult α ε) :
    (settle c id r).promises = c.promises := by
  cases h : c.settled.lookup id <;> simp [settle, h]

theorem settle_resolvers (c : Channel α ε) (id : Nat) (r : MaybeClosedResult α ε) :
    (settle c id r).resolvers = c.resolvers := by
  cases h : c.settled.lookup id <;> simp [settle, h]

theorem settle_closed (c : Channel α ε) (id : Nat) (r : MaybeClosedResult α ε) :
    (settle c id r).closed = c.closed := by
  cases h : c.settled.lookup id <;> simp [settle, h]

theorem settle_error (c : Channel α ε) (id : Nat) (r : MaybeClosedResult α ε) :
    (settle c id r).error = c.error := by
  cases h : c.settled.lookup id <;> simp [settle, h]

theorem write_closed {c : Channel α ε} (hcl : c.closed = true) (v : α) :
    write c v = (.closedRes c.error, c) := by
  cases herr : c.error <;> simp [write, hcl, herr]

theorem write_open {c : Channel α ε} (hcl : c.closed = false) {r : Nat} {rest : List Nat}
    (hr : (ensureResolver c).resolvers = r :: rest) (v : α) :
    write c v = (.value v, settle { ensureResolver c with resolvers := rest } r (.value v)) := by
  simp [write, hcl, hr]

theorem read_open {c : Channel α ε} (hcond : ¬(c.closed = true ∧ c.promises.length = 0))
    {p : Nat} {rest : List Nat} (hp : (ensurePromise c).promises = p :: rest) :
    read c = (.wait p, { ensurePromise c with promises := rest }) := by
  simp only [read]
  rw [if_neg hcond, hp]

theorem close_closed {c : Channel α ε} (hcl : c.closed = true) (err : Option ε) :
    close c err = c := by
  simp [close, hcl]

theorem closeFold_fields (err : Option ε) (l : List Nat) (c : Channel α ε) :
    (l.foldl (fun acc r => settle acc r (.closedRes err)) c).promises = c.promises ∧
      (l.foldl (fun acc r => settle acc r (.closedRes err)) c).resolvers = c.resolvers ∧
      (l.foldl (fun acc r => settle acc r (.closedRes err)) c).closed = c.closed ∧
      (l.foldl (fun acc r => settle acc r (.closedRes err)) c).error = c.error := by
  induction l generalizing c with
  | nil => exact ⟨rfl, rfl, rfl, rfl⟩
  | cons x t ih =>
    have hx := ih (settle c x (.closedRes err))
    simp only [List.foldl_cons]
    refine ⟨?_, ?_, ?_, ?_⟩
    · rw [hx.1, settle_promises]
    · rw [hx.2.1, settle_resolvers]
    · rw [hx.2.2.1, settle_closed]
    · rw [hx.2.2.2, settle_error]

theorem close_fields {c : Channel α ε} (hcl : c.closed = false) (err : Option ε) :
    (close c err).closed = true ∧ (close c err).error = err ∧
      (close c err).promises = c.promises ∧ (close c err).resolvers = c.resolvers := by
  have h := closeFold_fields err ({ c with closed := true, error := err } : Channel α ε).resolvers
    { c with closed := true, error := err }
  simp only [close, hcl, Bool.false_eq_true, if_false]
  exact ⟨h.2.2.1, h.2.2.2, h.1, h.2.1⟩

theorem ensureResolver_resolvers_ne_nil (c : Channel α ε) :
    (ensureResolver c).resolvers ≠ [] := by
  unfold ensureResolver
  split
  · simp [addPromise]
  · next h => exact fun hnil => h (by rw [hnil]; rfl)

theorem ensurePromise_promises_ne_nil (c : Channel α ε) :
    (ensurePromise c).promises ≠ [] := by
  unfold ensurePromise
  split
  · simp [addPromise]
  · next h => exact fun hnil => h (by rw [hnil]; rfl)

/-- Mode invariant preservation: after any single operation, at least one
of the two queues stays empty. -/
theorem step_mode {c : Channel α ε} (h : c.promises = [] ∨ c.resolvers = [])
    (op : ChanOp α ε) : (step c op).promises = [] ∨ (step c op).resolvers = [] := by
  cases op with
  | write v =>
    show (write c v).2.promises = [] ∨ (write c v).2.resolvers = []
    cases hcl : c.closed with
    | true => rw [write_closed hcl]; exact h
    | false =>
      cases hr : c.resolvers with
      | nil =>
        have he : ensureResolver c = addPromise c := by
          simp [ensureResolver, hr]
        have hrr : (ensureResolver c).resolvers = c.nextId :: [] := by
          rw [he]; simp [addPromise, hr]
        rw [write_open hcl hrr v]
        right
        rw [settle_resolvers]
      | cons x t =>
        have he : ensureResolver c = c := by
          simp [ensureResolver, hr]
        have hrr : (ensureResolver c).resolvers = x :: t := by rw [he, hr]
        rw [write_open hcl hrr v]
        left
        rw [settle_promises]
        show (ensureResolver c).promises = []
        rw [he]
        rcases h with h | h
        · exact h
        · rw [h] at hr; exact absurd hr (by simp)
  | read =>
    show (read c).2.promises = [] ∨ (read c).2.resolvers = []
    by_cases hcond : c.closed = true ∧ c.promises.length = 0
    · have hp : c.promises = [] := List.length_eq_zero.mp hcond.2
      rw [read_drained hcond.1 hp]
      exact h
    · cases hp : c.promises with
      | nil =>
        have he : ensurePromise c = addPromise c := by
          simp [ensurePromise, hp]
        have hpp : (ensurePromise c).promises = c.nextId :: [] := by
          rw [he]; simp [addPromise, hp]
        rw [read_open hcond hpp]
        left
        rfl
      | cons x t =>
        have he : ensurePromise c = c := by
          simp [ensurePromise, hp]
        have hpp : (ensurePromise c).promises = x :: t := by rw [he, hp]
        rw [read_open hcond hpp]
        right
        show (ensurePromise c).resolvers = []
        rw [he]
        rcases h with h | h
        · rw [h] at hp; exact absurd hp (by simp)
        · exact h
  | close e =>
    show (close c e).promises = [] ∨ (close c e).resolvers = []
    cases hcl : c.closed with
    | true => rw [close_closed hcl]; exact h
    | false =>
      have hf := close_fields hcl e
      rw [hf.2.2.1, hf.2.2.2]
      exact h

/-- Mode invariant for every reachable state. -/
theorem runOps_mode (ops : List (ChanOp α ε)) :
    (runOps ops).promises = [] ∨ (runOps ops).resolvers = [] := by
  suffices h : ∀ (c : Channel α ε), c.promises = [] ∨ c.resolvers = [] →
      (ops.foldl step c).promises = [] ∨ (ops.foldl step c).resolvers = [] by
    exact h createUnboundedAsyncChannel (Or.inl rfl)
  induction ops with
  | nil => intro c hc; exact hc
  | cons op t ih =>
    intro c hc
    exact ih (step c op) (step_mode hc op)

end Channel

namespace LLQueue

/-- Live chain predicate: starting at node `f` and following `next`
pointers we traverse exactly the values `l`, ending at node `r` whose
`next` is `null`; node indices strictly increase along the chain (nodes
are allocated in order, so links always point forward). -/
inductive Chain (nodes : List (α × Option Nat)) : Nat → Nat → List α → Prop where
  | single (i : Nat) (v : α) (h : nodes[i]? = some (v, none)) : Chain nodes i i [v]
  | cons (i j r : Nat) (v : α) (l : List α) (h : nodes[i]? = some (v, some j))
      (hij : i < j) (t : Chain nodes j r l) : Chain nodes i r (v :: l)

/-- Representation invariant: the queue state `q` holds exactly the
element sequence `l`. -/
def Rep (q : LLQueue α) (l : List α) : Prop :=
  (q.front = none ∧ q.rear = none ∧ l = [] ∧ q.size = 0) ∨
  (∃ f r, q.front = some f ∧ q.rear = some r ∧ Chain q.nodes f r l ∧ q.size = l.length)

theorem lt_length_of_getElem?_eq_some {l : List β} {i : Nat} {x : β}
    (h : l[i]? = some x) : i < l.length := by
  by_contra hn
  rw [List.getElem?_eq_none (Nat.le_of_not_lt hn)] at h
  cases h

theorem chain_le {nodes : List (α × Option Nat)} {f r : Nat} {l : List α}
    (hc : Chain nodes f r l) : f ≤ r := by
  induction hc with
  | single i v h => exact Nat.le_refl i
  | cons i j r v l h hij t ih => omega

theorem chain_rear_lt {nodes : List (α × Option Nat)} {f r : Nat} {l : List α}
    (hc : Chain nodes f r l) : r < nodes.length := by
  induction hc with
  | single i v h => exact lt_length_of_getElem?_eq_some h
  | cons i j r v l h hij t ih => exact ih

theorem chain_length {nodes : List (α × Option Nat)} {f r : Nat} {l : List α}
    (hc : Chain nodes f r l) : f + l.length ≤ r + 1 := by
  induction hc with
  | single i v h => simp
  | cons i j r v l h hij t ih => simp only [List.length_cons]; omega

theorem setNext_eq_set {nodes : List (α × Option Nat)} {i : Nat} {v : α} {old : Option Nat}
    (h : nodes[i]? = some (v, old)) (j : Option Nat) :
    setNext nodes i j = nodes.set i (v, j) := by
  simp [setNext, h]

theorem chain_extend {nodes : List (α × Option Nat)} {f r : Nat} {l : List α}
    (hc : Chain nodes f r l) (w : α) :
    Chain (setNext (nodes ++ [(w, none)]) r (some nodes.length)) f nodes.length (l ++ [w]) := by
  have hrlt : r < nodes.length := chain_rear_lt hc
  induction hc with
  | single i v h =>
    have hget : (nodes ++ [(w, none)])[i]? = some (v, none) :=
      (List.getElem?_append_left hrlt).trans h
    rw [setNext_eq_set hget]
    refine Chain.cons i nodes.length nodes.length v [w] ?_ hrlt ?_
    · rw [List.getElem?_set_self (by simp; omega)]
    · refine Chain.single nodes.length w ?_
      rw [List.getElem?_set_ne (by omega), List.getElem?_concat_length]
  | cons i j r v l h hij t ih =>
    have hjr : j ≤ r := chain_le t
    have hilt : i < nodes.length := lt_length_of_getElem?_eq_some h
    have hget : (nodes ++ [(w, none)])[i]? = some (v, some j) :=
      (List.getElem?_append_left hilt).trans h
    have hrget : ∃ vr nr, (nodes ++ [(w, none)])[r]? = some (vr, nr) := by
      have : r < (nodes ++ [(w, none)]).length := by simp; omega
      rcases List.getElem?_eq_some_iff.mpr ⟨this, rfl⟩ with hx
      exact ⟨_, _, by rw [hx]⟩
    rcases hrget with ⟨vr, nr, hr⟩
    refine Chain.cons i j nodes.length v (l ++ [w]) ?_ hij (ih hrlt)
    rw [setNext_eq_set hr, List.getElem?_set_ne (by omega)]
    exact hget

theorem chain_chainList {nodes : List (α × Option Nat)} {f r : Nat} {l : List α}
    (hc : Chain nodes f r l) : ∀ fuel, l.length ≤ fuel → chainList nodes (some f) fuel = l := by
  induction hc with
  | single i v h =>
    intro fuel hfuel
    match fuel, hfuel with
    | fuel + 1, _ => simp [chainList, h]
  | cons i j r v l h hij t ih =>
    intro fuel hfuel
    match fuel, hfuel with
    | fuel + 1, hfuel =>
      simp only [chainList, h]
      rw [ih fuel (by simpa using Nat.lt_succ_iff.mp (Nat.lt_of_lt_of_le (Nat.lt_succ_self _) hfuel))]

theorem chainList_none {nodes : List (α × Option Nat)} (fuel : Nat) :
    chainList nodes none fuel = [] := by
  cases fuel <;> rfl

theorem rep_toList {q : LLQueue α} {l : List α} (h : Rep q l) : q.toList = l := by
  rcases h with ⟨hf, _, hl, _⟩ | ⟨f, r, hf, _, hc, _⟩
  · rw [toList, hf, hl, chainList_none]
  · rw [toList, hf]
    refine chain_chainList hc q.nodes.length ?_
    have h1 := chain_length hc
    have h2 := chain_rear_lt hc
    omega

theorem rep_size {q : LLQueue α} {l : List α} (h : Rep q l) : q.size = l.length := by
  rcases h with ⟨_, _, hl, hs⟩ | ⟨f, r, _, _, _, hs⟩
  · rw [hs, hl]
    rfl
  · exact hs

theorem enqueue_rear_none {q : LLQueue α} (hr : q.rear = none) (w : α) :
    q.enqueue w = { nodes := q.nodes ++ [(w, none)], front := some q.nodes.length,
                    rear := some q.nodes.length, size := q.size + 1 } := by
  simp [enqueue, hr]

theorem enqueue_rear_some {q : LLQueue α} {r : Nat} (hr : q.rear = some r) (w : α) :
    q.enqueue w = { nodes := setNext (q.nodes ++ [(w, none)]) r (some q.nodes.length),
                    front := q.front, rear := some q.nodes.length, size := q.size + 1 } := by
  simp [enqueue, hr]

theorem dequeue_front_none {q : LLQueue α} (hf : q.front = none) :
    q.dequeue = (none, q) := by
  simp [dequeue, hf]

theorem dequeue_front_some {q : LLQueue α} {f : Nat} {v : α} {nxt : Option Nat}
    (hf : q.front = some f) (hget : q.nodes[f]? = some (v, nxt)) :
    q.dequeue = (some v,
      { q with front := nxt, rear := if nxt = none then none else q.rear,
               size := q.size - 1 }) := by
  simp [dequeue, hf, hget]

theorem rep_enqueue {q : LLQueue α} {l : List α} (h : Rep q l) (w : α) :
    Rep (q.enqueue w) (l ++ [w]) := by
  rcases h with ⟨hf, hr, hl, hs⟩ | ⟨f, r, hf, hr, hc, hs⟩
  · subst hl
    rw [enqueue_rear_none hr w]
    exact Or.inr ⟨q.nodes.length, q.nodes.length, rfl, rfl,
      Chain.single _ w (List.getElem?_concat_length _ _), by simp [hs]⟩
  · rw [enqueue_rear_some hr w]
    exact Or.inr ⟨f, q.nodes.length, hf, rfl, chain_extend hc w, by simp [hs]⟩

theorem rep_dequeue {q : LLQueue α} {l : List α} (h : Rep q l) :
    (q.dequeue).1 = l.head? ∧ Rep (q.dequeue).2 l.tail := by
  rcases h with ⟨hf, hr, hl, hs⟩ | ⟨f, r, hf, hr, hc, hs⟩
  · subst hl
    rw [dequeue_front_none hf]
    exact ⟨rfl, Or.inl ⟨hf, hr, rfl, hs⟩⟩
  · cases hc with
    | single i v hget =>
      rw [dequeue_front_some hf hget]
      refine ⟨rfl, Or.inl ⟨rfl, by simp, rfl, ?_⟩⟩
      simp only [List.length_singleton] at hs
      simp [hs]
    | cons i j r v t hget hij hchain =>
      rw [dequeue_front_some hf hget]
      refine ⟨rfl, Or.inr ⟨j, r, rfl, ?_, hchain, ?_⟩⟩
      · simp [hr]
      · simp only [List.length_cons] at hs
        simp [hs]

/-- Queue operations, for describing reachable queue states. -/
inductive QOp (α : Type) where
  | enq (v : α)
  | deq

/-- Queue state transition of one operation. -/
def qStep (q : LLQueue α) : QOp α → LLQueue α
  | .enq v => q.enqueue v
  | .deq => (q.dequeue).2

/-- Queue reached from the empty queue by a sequence of operations. -/
def runQOps (ops : List (QOp α)) : LLQueue α :=
  ops.foldl qStep createLinkedListQueue

/-- Abstract list semantics of one queue operation. -/
def listStep (l : List α) : QOp α → List α
  | .enq v => l ++ [v]
  | .deq => l.tail

/-- Abstract element sequence after a sequence of operations. -/
def runListOps (ops : List (QOp α)) : List α :=
  ops.foldl listStep []

theorem rep_runQOps (ops : List (QOp α)) : Rep (runQOps ops) (runListOps ops) := by
  suffices h : ∀ (q : LLQueue α) (l : List α), Rep q l →
      Rep (ops.foldl qStep q) (ops.foldl listStep l) by
    exact h createLinkedListQueue [] (Or.inl ⟨rfl, rfl, rfl, rfl⟩)
  induction ops with
  | nil => intro q l hq; exact hq
  | cons op t ih =>
    intro q l hq
    cases op with
    | enq v => exact ih _ _ (rep_enqueue hq v)
    | deq => exact ih _ _ (rep_dequeue hq).2

end LLQueue

open Channel LLQueue

/-- C1: for every quiescent open channel (no call to close, nothing buffered,
no pending reader), after writes `v1..vn` the first `n` subsequent reads
return `{closed: false, value: vi}` in exactly the order written. -/
theorem c1_fifo_reads {α ε : Type} {c : Channel α ε} {e : Option ε} {vs : List α}
    (h : ChanInv c false e vs.length vs) (ws : List α) :
    (readN (writeAll c ws) ws.length).1
      = ws.map (fun v => some (MaybeClosedResult.value v)) := by
  have hw := chanInv_writeAll h ws
  have hd := readN_drain_values false ws.length (writeAll c ws) vs.length (vs ++ ws) hw
    (by simp)
  rw [hd.1, List.drop_left]

/-- Witness for C1 at a concrete channel and write sequence. -/
theorem c1_fifo_reads_witness :
    (readN (writeAll (createUnboundedAsyncChannel (α := Nat) (ε := Nat)) [3, 1, 2]) [3, 1, 2].length).1
      = [3, 1, 2].map (fun v => some (MaybeClosedResult.value v)) :=
  @c1_fifo_reads Nat Nat createUnboundedAsyncChannel none [] (by decide) [3, 1, 2]

/-- C2: for every channel holding buffered unread values (the suffix
`vs.drop k`), after `close(err)` the next reads return those values in
write order, and every read after that returns `{closed: true, error: err}`. -/
theorem c2_close_drains_then_errors {α ε : Type} {c : Channel α ε} {e0 : Option ε}
    {k : Nat} {vs : List α} (h : ChanInv c false e0 k vs) (err : Option ε) (m : Nat) :
    (readN (close c err) ((vs.length - k) + m)).1
      = ((vs.drop k).map (fun v => some (MaybeClosedResult.value v)))
        ++ List.replicate m (some (MaybeClosedResult.closedRes err)) := by
  have hc := chanInv_close h err
  have hadd := readN_append (vs.length - k) (close c err) m
  have hvals := readN_drain_values true (vs.length - k) (close c err) k vs hc rfl
  have hclosed := readN_drain_closed hvals.2 m
  rw [hadd.1, hvals.1, hclosed.1]

/-- Witness for C2: two buffered values, close with an error, four reads. -/
theorem c2_close_drains_then_errors_witness :
    (readN (close (writeAll (createUnboundedAsyncChannel (α := Nat) (ε := Nat)) [10, 20]) (some 7))
        (([10, 20].length - 0) + 2)).1
      = (([10, 20].drop 0).map (fun v => some (MaybeClosedResult.value v)))
        ++ List.replicate 2 (some (MaybeClosedResult.closedRes (some 7))) :=
  @c2_close_drains_then_errors Nat Nat (writeAll createUnboundedAsyncChannel [10, 20]) none 0 [10, 20] (by decide) (some 7) 2

/-- C3: on an open, empty channel (and fresh slot ids unsettled), reader A's
`read()` claims slot `nextId`, reader B's subsequent `read()` claims slot
`nextId + 1`, and a single following `write(v)` settles A's slot with
`{closed: false, value: v}` while B's slot remains unsettled: the write
resolves the earliest-enqueued resolver. -/
theorem c3_earliest_reader_first {α ε : Type} {c : Channel α ε} (v : α)
    (hcl : c.closed = false) (hprom : c.promises = []) (hres : c.resolvers = [])
    (hfa : c.settled.lookup c.nextId = none)
    (hfb : c.settled.lookup (c.nextId + 1) = none) :
    (read c).1 = .wait c.nextId ∧
    (read (read c).2).1 = .wait (c.nextId + 1) ∧
    readResult (write (read (read c).2).2 v).2 (read c).1
      = some (MaybeClosedResult.value v) ∧
    readResult (write (read (read c).2).2 v).2 (read (read c).2).1 = none := by
  have hcond1 : ¬(c.closed = true ∧ c.promises.length = 0) := by
    rw [hcl]
    simp
  have hep1 : ensurePromise c = addPromise c := by
    simp [ensurePromise, hprom]
  have hp1 : (ensurePromise c).promises = c.nextId :: [] := by
    rw [hep1]
    simp [addPromise, hprom]
  have h1 : read c
      = (.wait c.nextId, ⟨c.nextId + 1, [], [c.nextId], c.settled, false, c.error⟩) := by
    rw [read_open hcond1 hp1, hep1]
    simp [addPromise, hres, hcl]
  have h2 : read (⟨c.nextId + 1, [], [c.nextId], c.settled, false, c.error⟩ : Channel α ε)
      = (.wait (c.nextId + 1),
         ⟨c.nextId + 1 + 1, [], [c.nextId, c.nextId + 1], c.settled, false, c.error⟩) := by
    simp [Channel.read, Channel.ensurePromise, Channel.addPromise]
  have h3 : write (⟨c.nextId + 1 + 1, [], [c.nextId, c.nextId + 1], c.settled, false,
        c.error⟩ : Channel α ε) v
      = (.value v, ⟨c.nextId + 1 + 1, [], [c.nextId + 1],
          (c.nextId, .value v) :: c.settled, false, c.error⟩) := by
    simp [Channel.write, Channel.ensureResolver, Channel.settle, hfa]
  rw [h1]
  simp only [h2, h3]
  refine ⟨trivial, trivial, ?_, ?_⟩
  · simp [readResult]
  · simp only [readResult, List.lookup_cons]
    have hne : (c.nextId + 1 == c.nextId) = false := by
      simp
    rw [hne, hfb]

/-- Witness for C3 at the fresh channel. -/
theorem c3_earliest_reader_first_witness :
    (read (createUnboundedAsyncChannel (α := Nat) (ε := Nat))).1 = .wait 0 ∧
    (read (read (createUnboundedAsyncChannel (α := Nat) (ε := Nat))).2).1 = .wait (0 + 1) ∧
    readResult (write (read (read (createUnboundedAsyncChannel (α := Nat) (ε := Nat))).2).2 42).2
      (read (createUnboundedAsyncChannel (α := Nat) (ε := Nat))).1
      = some (MaybeClosedResult.value 42) ∧
    readResult (write (read (read (createUnboundedAsyncChannel (α := Nat) (ε := Nat))).2).2 42).2
      (read (read (createUnboundedAsyncChannel (α := Nat) (ε := Nat))).2).1 = none :=
  c3_earliest_reader_first 42 (by decide) (by decide) (by decide) (by decide) (by decide)

/-- C4: close is idempotent and the first close's error is permanent: on an
open channel, `close()` without an error followed by any sequence of later
`close` calls (with or without errors) leaves `state` as
`{closed: true, error: undefined}`. -/
theorem c4_close_idempotent {α ε : Type} {c : Channel α ε} (hcl : c.closed = false)
    (es : List (Option ε)) :
    state (es.foldl close (close c none)) = (true, none) := by
  have h0 := close_fields hcl none
  suffices hfold : ∀ (l : List (Option ε)) (d : Channel α ε), d.closed = true →
      l.foldl close d = d by
    rw [hfold es _ h0.1, state, h0.1, h0.2.1]
  intro l
  induction l with
  | nil => intro d hd; rfl
  | cons x t ih =>
    intro d hd
    simp only [List.foldl_cons]
    rw [close_closed hd x]
    exact ih d hd

/-- Witness for C4: close without error, then with error 5, then without. -/
theorem c4_close_idempotent_witness :
    state (List.foldl close (close (createUnboundedAsyncChannel (α := Nat) (ε := Nat)) none)
      [some 5, none]) = (true, none) :=
  c4_close_idempotent (by decide) [some 5, none]

/-- C5: writing to a closed channel returns `{closed: true, error}` with the
stored error and leaves the entire channel state (both queues, the closed
flag, the error field and the settlement map) unchanged. -/
theorem c5_write_on_closed_unchanged {α ε : Type} {c : Channel α ε} (hcl : c.closed = true)
    (v : α) : write c v = (.closedRes c.error, c) :=
  write_closed hcl v

/-- Witness for C5 on a channel closed with error 3. -/
theorem c5_write_on_closed_unchanged_witness :
    write (close (createUnboundedAsyncChannel (α := Nat) (ε := Nat)) (some 3)) 9
      = (.closedRes (close (createUnboundedAsyncChannel (α := Nat) (ε := Nat)) (some 3)).error,
         close (createUnboundedAsyncChannel (α := Nat) (ε := Nat)) (some 3)) :=
  c5_write_on_closed_unchanged (by decide) 9

/-- C6: after writing 0, 1, 2 and closing, async iteration yields exactly
`[0, 1, 2]`; closed without an error it then terminates cleanly, and closed
with error `e` it throws `e` only after yielding all three values. -/
theorem c6_iteration_yields_then_terminates (ε : Type) (e : ε) :
    iterate (close (writeAll (createUnboundedAsyncChannel (α := Nat) (ε := ε)) [0, 1, 2]) none) 4
      = .ended [0, 1, 2] ∧
    iterate (close (writeAll (createUnboundedAsyncChannel (α := Nat) (ε := ε)) [0, 1, 2])
        (some e)) 4
      = .threw [0, 1, 2] e := by
  constructor
  · have h1 := chanInv_writeAll (chanInv_init (α := Nat) (ε := ε)) [0, 1, 2]
    rw [List.nil_append] at h1
    have h3 := iterate_drain 3 _ 0 [0, 1, 2] (chanInv_close h1 none) rfl
    simpa using h3
  · have h1 := chanInv_writeAll (chanInv_init (α := Nat) (ε := ε)) [0, 1, 2]
    rw [List.nil_append] at h1
    have h3 := iterate_drain 3 _ 0 [0, 1, 2] (chanInv_close h1 (some e)) rfl
    simpa using h3

/-- C7 is refuted: after a single write on a fresh channel (a reachable
state), the promise queue holds one element (the buffered value) while the
resolver queue is empty, so the two queues do not have equal sizes at every
reachable state. -/
theorem c7_matching_cardinality_counterexample :
    (runOps (α := Nat) (ε := Nat) [ChanOp.write 5]).promises.length = 1 ∧
    (runOps (α := Nat) (ε := Nat) [ChanOp.write 5]).resolvers.length = 0 := by
  decide

/-- C7 amended: the two queues are appended to in lockstep — every slot is
created together with its resolver, `addPromise` lengthening both queues by
one — but they are consumed independently (write removes only a resolver,
read removes only a slot), so at a reachable state their sizes are equal
exactly when both queues are empty. -/
theorem c7_lockstep_amended (α ε : Type) :
    (∀ c : Channel α ε, (addPromise c).promises.length = c.promises.length + 1 ∧
      (addPromise c).resolvers.length = c.resolvers.length + 1) ∧
    (∀ ops : List (ChanOp α ε),
      ((runOps ops).promises.length = (runOps ops).resolvers.length ↔
       (runOps ops).promises = [] ∧ (runOps ops).resolvers = [])) := by
  constructor
  · intro c
    constructor <;> simp [addPromise]
  · intro ops
    rcases runOps_mode ops with h | h
    · rw [h]
      constructor
      · intro hlen
        exact ⟨rfl, List.length_eq_zero.mp (by simpa using hlen.symm)⟩
      · intro hb
        rw [hb.2]
    · rw [h]
      constructor
      · intro hlen
        exact ⟨List.length_eq_zero.mp (by simpa using hlen), rfl⟩
      · intro hb
        rw [hb.1]

/-- C8 is refuted: on the queue `[1]`, an iterator requested before an
`enqueue 2` still yields the later element — consuming it produces
`[1, 2]`, not the `[1]` present at the moment the iterator was requested,
because the generator lazily follows the live `next` pointers. -/
theorem c8_snapshot_counterexample :
    chainList (((createLinkedListQueue (α := Nat)).enqueue 1).enqueue 2).nodes
        ((createLinkedListQueue (α := Nat)).enqueue 1).front
        (((createLinkedListQueue (α := Nat)).enqueue 1).enqueue 2).nodes.length
      = [1, 2] ∧
    ((createLinkedListQueue (α := Nat)).enqueue 1).toList = [1] := by
  decide

/-- C8 amended: when no operations are interleaved with the iteration, the
iterator of any reachable queue yields exactly the elements present, in
FIFO order, and consuming it removes nothing — it is a pure read of the
state, so the size and the next dequeue result still agree with the same
element sequence.  (An interleaved enqueue, however, is visible to an
in-progress iterator, as the counterexample shows.) -/
theorem c8_iterator_fifo_amended (α : Type) (ops : List (QOp α)) :
    (runQOps ops).toList = runListOps ops ∧
    (runQOps ops).size = (runListOps ops).length ∧
    ((runQOps ops).dequeue).1 = (runListOps ops).head? := by
  have h := rep_runQOps ops
  exact ⟨rep_toList h, rep_size h, (rep_dequeue h).1⟩

/-- C9: at every state reachable by write, read and close operations from a
fresh channel, at least one of the two internal queues is empty:
`min (promises.size, resolvers.size) = 0`. -/
theorem c9_min_queue_size_zero (α ε : Type) (ops : List (ChanOp α ε)) :
    min (runOps ops).promises.length (runOps ops).resolvers.length = 0 := by
  rcases runOps_mode ops with h | h <;> simp [h]

/-- C10: the non-null assertions on dequeue are safe — after the guard that
calls `addPromise` when the respective queue is empty, the queue `write`
(resp. `read`) dequeues from is never empty, for every channel state. -/
theorem c10_guarded_dequeue_nonempty (α ε : Type) (c : Channel α ε) :
    (ensureResolver c).resolvers ≠ [] ∧ (ensurePromise c).promises ≠ [] :=
  ⟨ensureResolver_resolvers_ne_nil c, ensurePromise_promises_ne_nil c⟩
